import Mathlib

/-!
Verification of the javanano enum-field code generator
(`javanano_enum_field.cc`, `javanano_enum.cc`).

The two source files are template emitters: they print the Java code that
will serve as the runtime merge / parse / serialize / size logic for
enum-typed fields, and the named constants of an enumeration.  This
development gives a shallow embedding of the semantics of the emitted
Java fragments, together with the alias partition computed by
`EnumGenerator::EnumGenerator`, and proves the specified properties of
those semantics.

Runtime helpers that the emitted code calls
(`CodedOutputStreamNano.writeInt32`, `computeInt32Size`,
`computeRawVarint32Size`, `CodedInputStreamNano.readInt32`,
`readRawVarint32`, `pushLimit`, `getRepeatedFieldArrayLength`,
`getPackedRepeatedFieldArrayLength`) are not part of this repository
snapshot; they are modelled from the spec, which describes them as the
standard variable-length (base-128 varint) encoding of signed 32-bit
integers, a length-limit discipline, and lookahead element-count helpers.
-/

set_option maxHeartbeats 1000000
set_option maxRecDepth 8192

namespace JavaNano

/-- Base-128 variable-length encoding of a natural number: little-endian
groups of 7 bits, a set high bit marking every byte except the last.
Modelled from the spec: this is the `writeRawVarint32` / `writeRawVarint64`
wire primitive of the runtime, which is not part of this snapshot. -/
def varintEncode (n : Nat) : List Nat :=
  if h : n < 128 then [n]
  else (n % 128 + 128) :: varintEncode (n / 128)
termination_by n
decreasing_by exact Nat.div_lt_self (by omega) (by omega)

/-- Base-128 variable-length decoding: reads bytes while the high bit is
set.  Modelled from the spec: the `readRawVarint32` primitive. -/
def varintDecode : List Nat → Option (Nat × List Nat)
  | [] => none
  | b :: rest =>
    if b < 128 then some (b, rest)
    else
      match varintDecode rest with
      | some (n, rest2) => some (b % 128 + 128 * n, rest2)
      | none => none

theorem varintDecode_encode (n : Nat) (rest : List Nat) :
    varintDecode (varintEncode n ++ rest) = some (n, rest) := by
  induction n using Nat.strong_induction_on with
  | _ n ih =>
    unfold varintEncode
    split
    case isTrue h =>
      simp [varintDecode, h]
    case isFalse h =>
      have hdiv : n / 128 < n := Nat.div_lt_self (by omega) (by omega)
      simp only [List.cons_append, varintDecode, List.append_eq]
      rw [if_neg (by omega)]
      rw [ih (n / 128) hdiv]
      have hmod := Nat.div_add_mod n 128
      simp only [Option.some.injEq, Prod.mk.injEq]
      exact ⟨by omega, trivial⟩

theorem varintDecode_shorter :
    ∀ (bs : List Nat) (n : Nat) (rest : List Nat),
      varintDecode bs = some (n, rest) → rest.length < bs.length := by
  intro bs
  induction bs with
  | nil => intro n rest h; simp [varintDecode] at h
  | cons b tl ih =>
    intro n rest h
    simp only [varintDecode] at h
    split at h
    · simp only [Option.some.injEq, Prod.mk.injEq] at h
      simp [← h.2]
    · split at h
      · next m rest2 hm =>
        simp only [Option.some.injEq, Prod.mk.injEq] at h
        obtain ⟨h1, h2⟩ := h
        have hlen := ih m rest2 hm
        rw [← h2]
        simp only [List.length_cons]
        omega
      · exact absurd h (by simp)

theorem varintEncode_length_pos (n : Nat) : 0 < (varintEncode n).length := by
  unfold varintEncode
  split <;> simp

theorem varintEncode_ne_nil (n : Nat) : varintEncode n ≠ [] := by
  intro h
  have := varintEncode_length_pos n
  simp [h] at this

theorem varintEncode_length_le :
    ∀ (k : Nat), 1 ≤ k → ∀ (n : Nat), n < 128 ^ k →
      (varintEncode n).length ≤ k := by
  intro k
  induction k with
  | zero => omega
  | succ k ih =>
    intro _ n hn
    unfold varintEncode
    split
    · simp
    · next h =>
      rcases Nat.eq_zero_or_pos k with hk | hk
      · subst hk; simp at hn; omega
      · have hq : n / 128 < 128 ^ k := by
          rw [Nat.div_lt_iff_lt_mul (by omega)]
          calc n < 128 ^ (k + 1) := hn
          _ = 128 ^ k * 128 := by ring
        have := ih hk (n / 128) hq
        simp only [List.length_cons]
        omega

theorem varintEncode_length_gt :
    ∀ (k : Nat) (n : Nat), 128 ^ k ≤ n → k < (varintEncode n).length := by
  intro k
  induction k with
  | zero => intro n _; exact varintEncode_length_pos n
  | succ k ih =>
    intro n hn
    have h128 : 128 ≤ n := by
      calc 128 = 128 ^ 1 := by ring
      _ ≤ 128 ^ (k + 1) := Nat.pow_le_pow_right (by omega) (by omega)
      _ ≤ n := hn
    unfold varintEncode
    rw [dif_neg (by omega)]
    have hq : 128 ^ k ≤ n / 128 := by
      rw [Nat.le_div_iff_mul_le (by omega)]
      calc 128 ^ k * 128 = 128 ^ (k + 1) := by ring
      _ ≤ n := hn
    have := ih (n / 128) hq
    simp only [List.length_cons]
    omega

/-- Byte length of the varint encoding of a 32-bit quantity.  Modelled
from the spec: `CodedOutputStreamNano.computeRawVarint32Size`. -/
def computeRawVarint32Size (n : Nat) : Nat :=
  if n < 2 ^ 7 then 1
  else if n < 2 ^ 14 then 2
  else if n < 2 ^ 21 then 3
  else if n < 2 ^ 28 then 4
  else 5

theorem varintEncode_length_eq_size (n : Nat) (h : n < 2 ^ 35) :
    (varintEncode n).length = computeRawVarint32Size n := by
  unfold computeRawVarint32Size
  have p1 : (128 : Nat) ^ 1 = 2 ^ 7 := by norm_num
  have p2 : (128 : Nat) ^ 2 = 2 ^ 14 := by norm_num
  have p3 : (128 : Nat) ^ 3 = 2 ^ 21 := by norm_num
  have p4 : (128 : Nat) ^ 4 = 2 ^ 28 := by norm_num
  have p5 : (128 : Nat) ^ 5 = 2 ^ 35 := by norm_num
  split_ifs with h1 h2 h3 h4
  · have hle := varintEncode_length_le 1 (by omega) n (by omega)
    have hpos := varintEncode_length_pos n
    omega
  · have hle := varintEncode_length_le 2 (by omega) n (by omega)
    have hgt := varintEncode_length_gt 1 n (by omega)
    omega
  · have hle := varintEncode_length_le 3 (by omega) n (by omega)
    have hgt := varintEncode_length_gt 2 n (by omega)
    omega
  · have hle := varintEncode_length_le 4 (by omega) n (by omega)
    have hgt := varintEncode_length_gt 3 n (by omega)
    omega
  · have hle := varintEncode_length_le 5 (by omega) n (by omega)
    have hgt := varintEncode_length_gt 4 n (by omega)
    omega

/-- The signed 32-bit range of a Java `int`. -/
def inInt32 (v : Int) : Prop := -(2 ^ 31) ≤ v ∧ v < 2 ^ 31

instance (v : Int) : Decidable (inInt32 v) := by
  unfold inInt32; exact instDecidableAnd

/-- The unsigned 64-bit word holding the two-complement sign extension of
`v`; protobuf varint-encodes an `int32` through this word. -/
def uint64OfInt32 (v : Int) : Nat := (v % (2 ^ 64 : Int)).toNat

/-- Wire bytes of an `int32` value written as a varint (ten bytes for a
negative value).  Modelled from the spec: the variable-length encoding of
a signed 32-bit value used by `writeInt32NoTag` and read by `readInt32`. -/
def int32Encode (v : Int) : List Nat := varintEncode (uint64OfInt32 v)

/-- Byte length the runtime charges for an `int32` value without a tag.
Modelled from the spec: `CodedOutputStreamNano.computeInt32SizeNoTag`. -/
def computeInt32SizeNoTag (v : Int) : Nat :=
  if 0 ≤ v then computeRawVarint32Size v.toNat else 10

/-- Reinterpret the low 32 bits of a decoded varint as a signed Java
`int`. -/
def toSigned32 (n : Nat) : Int :=
  if n % 2 ^ 32 < 2 ^ 31 then ((n % 2 ^ 32 : Nat) : Int)
  else ((n % 2 ^ 32 : Nat) : Int) - 2 ^ 32

/-- Read one `int32` from the stream.  Modelled from the spec:
`CodedInputStreamNano.readInt32` reads one varint and keeps its low 32
bits as a signed value. -/
def readInt32 (bs : List Nat) : Option (Int × List Nat) :=
  match varintDecode bs with
  | some (n, rest) => some (toSigned32 n, rest)
  | none => none

theorem toSigned32_uint64OfInt32 (v : Int) (h : inInt32 v) :
    toSigned32 (uint64OfInt32 v) = v := by
  obtain ⟨h1, h2⟩ := h
  unfold toSigned32 uint64OfInt32
  split <;> omega

theorem readInt32_int32Encode (v : Int) (rest : List Nat) (h : inInt32 v) :
    readInt32 (int32Encode v ++ rest) = some (v, rest) := by
  unfold readInt32 int32Encode
  rw [varintDecode_encode]
  simp only [toSigned32_uint64OfInt32 v h]

theorem int32Encode_length (v : Int) (h : inInt32 v) :
    (int32Encode v).length = computeInt32SizeNoTag v := by
  obtain ⟨h1, h2⟩ := h
  unfold int32Encode computeInt32SizeNoTag uint64OfInt32
  split
  · next hpos =>
    have hv : (v % (2 ^ 64 : Int)).toNat = v.toNat := by omega
    rw [hv]
    exact varintEncode_length_eq_size v.toNat (by omega)
  · next hneg =>
    have hlo : (2 : Nat) ^ 63 ≤ (v % (2 ^ 64 : Int)).toNat := by omega
    have hhi : (v % (2 ^ 64 : Int)).toNat < 2 ^ 64 := by omega
    have hgt := varintEncode_length_gt 9 ((v % (2 ^ 64 : Int)).toNat) (by omega)
    have hle := varintEncode_length_le 10 (by omega) ((v % (2 ^ 64 : Int)).toNat)
      (by omega)
    omega

theorem int32Encode_ne_nil (v : Int) : int32Encode v ≠ [] :=
  varintEncode_ne_nil _

/-- Wire tag for field `number` with the given wire type, as computed by
`WireFormat::MakeTag` (the generator substitutes its value for `$tag$`). -/
def makeTag (number wireType : Nat) : Nat := number * 8 + wireType

/-- Byte length of the tag of field `number`, as computed by
`WireFormat::TagSize` (the generator substitutes it for `$tag_size$`);
the wire type does not change the varint length of the tag. -/
def tagSize (number : Nat) : Nat := computeRawVarint32Size (number * 8)

theorem tagEncode_length (number w : Nat) (hn : number < 2 ^ 29)
    (hw : w < 8) : (varintEncode (makeTag number w)).length = tagSize number := by
  unfold makeTag tagSize
  rw [varintEncode_length_eq_size (number * 8 + w) (by omega)]
  unfold computeRawVarint32Size
  split_ifs <;> omega

/-- Bytes produced by `output.writeInt32(number, v)`: the tag of field
`number` with wire type 0 (varint) followed by the encoded value.
Modelled from the spec: `CodedOutputStreamNano.writeInt32`. -/
def writeInt32 (number : Nat) (v : Int) : List Nat :=
  varintEncode (makeTag number 0) ++ int32Encode v

/-- Byte count charged by `computeInt32Size(number, v)`: tag size plus the
value size.  Modelled from the spec:
`CodedOutputStreamNano.computeInt32Size`. -/
def computeInt32Size (number : Nat) (v : Int) : Nat :=
  tagSize number + computeInt32SizeNoTag v

/-- Semantics of the fragment emitted by
`EnumFieldGenerator::GenerateSerializationCode`: write the tagged value
only when it differs from the declared default. -/
def enumSerialize (number : Nat) (dflt v : Int) : List Nat :=
  if v ≠ dflt then writeInt32 number v else []

/-- Semantics of the fragment emitted by
`EnumFieldGenerator::GenerateSerializedSizeCode`: the amount added to the
running `size` variable. -/
def enumSerializedSize (number : Nat) (dflt v : Int) : Nat :=
  if v ≠ dflt then computeInt32Size number v else 0

/-- Semantics of the fragment emitted by
`EnumFieldGenerator::GenerateParsingCode`: `$name$ = input.readInt32();`
(the new field value and the remaining stream). -/
def enumParse (bs : List Nat) : Option (Int × List Nat) := readInt32 bs

/-- Runtime state the repeated-enum-field fragments operate on, as
declared by `RepeatedEnumFieldGenerator::GenerateMembers`: the growable
`int[] $name$` and, for packed fields, the mutable
`int $name$MemoizedSerializedSize` cache cell. -/
structure RepeatedEnumField where
  elems : List Int
  memoizedSerializedSize : Nat
deriving Repr, DecidableEq

/-- The `dataSize` total computed by the element loop of
`RepeatedEnumFieldGenerator::GenerateSerializedSizeCode`. -/
def packedDataSize (elems : List Int) : Nat :=
  (elems.map computeInt32SizeNoTag).sum

/-- Semantics of the fragment emitted by
`RepeatedEnumFieldGenerator::GenerateSerializedSizeCode` when the field
is packed: the updated state (the cache cell is written) and the amount
added to the running `size` variable. -/
def repeatedSerializedSizePacked (number : Nat) (f : RepeatedEnumField) :
    RepeatedEnumField × Nat :=
  if f.elems.length > 0 then
    let dataSize := packedDataSize f.elems
    ({ f with memoizedSerializedSize := dataSize },
      dataSize + tagSize number + computeRawVarint32Size dataSize)
  else
    ({ f with memoizedSerializedSize := 0 }, 0)

/-- Semantics of the fragment emitted by
`RepeatedEnumFieldGenerator::GenerateSerializedSizeCode` when the field
is not packed: the amount added to `size` (no cache cell exists). -/
def repeatedSerializedSizeUnpacked (number : Nat) (f : RepeatedEnumField) :
    Nat :=
  if f.elems.length > 0 then
    packedDataSize f.elems + tagSize number * f.elems.length
  else 0

/-- Semantics of the fragment emitted by
`RepeatedEnumFieldGenerator::GenerateSerializationCode` when the field is
packed: one tag (wire type 2), the raw varint of the cached size cell,
then the elements back to back. -/
def repeatedSerializePacked (number : Nat) (f : RepeatedEnumField) :
    List Nat :=
  if f.elems.length > 0 then
    varintEncode (makeTag number 2) ++
      varintEncode f.memoizedSerializedSize ++
      (f.elems.map int32Encode).flatten
  else []

/-- Semantics of the fragment emitted by
`RepeatedEnumFieldGenerator::GenerateSerializationCode` when the field is
not packed: one `writeInt32` (tag plus value) per element. -/
def repeatedSerializeUnpacked (number : Nat) (f : RepeatedEnumField) :
    List Nat :=
  if f.elems.length > 0 then
    (f.elems.map (fun v => writeInt32 number v)).flatten
  else []

theorem readInt32_shorter (bs : List Nat) (v : Int) (rest : List Nat)
    (h : readInt32 bs = some (v, rest)) : rest.length < bs.length := by
  unfold readInt32 at h
  split at h
  · next n r hdec =>
    simp only [Option.some.injEq, Prod.mk.injEq] at h
    rw [← h.2]
    exact varintDecode_shorter bs n r hdec
  · exact absurd h (by simp)

/-- Count of varints that exactly fill a byte span.  Modelled from the
spec: the external lookahead helper
`getPackedRepeatedFieldArrayLength(input, tag)`, which reports how many
elements the current length-delimited span holds. -/
def countVarints : (bs : List Nat) → Option Nat
  | [] => some 0
  | b :: tl =>
    match h : varintDecode (b :: tl) with
    | some (_, rest) => (countVarints rest).map (· + 1)
    | none => none
termination_by bs => bs.length
decreasing_by exact varintDecode_shorter _ _ _ h

/-- Read `k` consecutive `int32` values with no interleaved tags: the
element loop of the packed parsing fragment. -/
def readInt32Run : Nat → List Nat → Option (List Int × List Nat)
  | 0, bs => some ([], bs)
  | k + 1, bs =>
    match readInt32 bs with
    | some (v, rest) =>
      match readInt32Run k rest with
      | some (vs, rest2) => some (v :: vs, rest2)
      | none => none
    | none => none

/-- Semantics of the fragment emitted by
`RepeatedEnumFieldGenerator::GenerateParsingCode` when the field is
packed: read the length word, limit the stream to that many bytes, get
the element count from the lookahead helper, allocate and fill exactly
that many slots (replacing the previous array), pop the limit. -/
def repeatedParsePacked (f : RepeatedEnumField) (input : List Nat) :
    Option (RepeatedEnumField × List Nat) :=
  match varintDecode input with
  | some (length, bs) =>
    if length ≤ bs.length then
      match countVarints (bs.take length) with
      | some arrayLength =>
        match readInt32Run arrayLength (bs.take length) with
        | some (vs, _) => some ({ f with elems := vs }, bs.drop length)
        | none => none
      | none => none
    else none
  | none => none

/-- Number of consecutive elements of the field starting at the current
stream position (the value whose tag was just consumed, plus every
following element introduced by the same tag).  Modelled from the spec:
the external lookahead helper `getRepeatedFieldArrayLength(input, tag)`. -/
def getRepeatedFieldArrayLength (tag : Nat) (bs : List Nat) : Option Nat :=
  match h1 : readInt32 bs with
  | some (_, rest) =>
    match h2 : varintDecode rest with
    | some (t, rest2) =>
      if t = tag then (getRepeatedFieldArrayLength tag rest2).map (· + 1)
      else some 1
    | none => some 1
  | none => none
termination_by bs.length
decreasing_by
  have ha := readInt32_shorter _ _ _ h1
  have hb := varintDecode_shorter _ _ _ h2
  omega

/-- Read `k` iterations of the unpacked parsing loop body: one `int32`
value followed by one discarded `readTag()`. -/
def readValueTagPairs : Nat → List Nat → Option (List Int × List Nat)
  | 0, bs => some ([], bs)
  | k + 1, bs =>
    match readInt32 bs with
    | some (v, bs1) =>
      match varintDecode bs1 with
      | some (_, bs2) =>
        match readValueTagPairs k bs2 with
        | some (vs, bs3) => some (v :: vs, bs3)
        | none => none
      | none => none
    | none => none

/-- Semantics of the fragment emitted by
`RepeatedEnumFieldGenerator::GenerateParsingCode` when the field is not
packed: ask the lookahead helper for the run length, grow the array by
that many slots, fill all but the last slot reading a tag after each
value, fill the last slot without re-reading a tag. -/
def repeatedParseUnpacked (tag : Nat) (f : RepeatedEnumField)
    (input : List Nat) : Option (RepeatedEnumField × List Nat) :=
  match getRepeatedFieldArrayLength tag input with
  | some arrayLength =>
    match readValueTagPairs (arrayLength - 1) input with
    | some (vs, bs1) =>
      match readInt32 bs1 with
      | some (v, bs2) => some ({ f with elems := f.elems ++ vs ++ [v] }, bs2)
      | none => none
    | none => none
  | none => none

theorem countVarints_nil : countVarints [] = some 0 := by
  rw [countVarints.eq_def]

theorem countVarints_encode (n : Nat) (rest : List Nat) :
    countVarints (varintEncode n ++ rest) =
      (countVarints rest).map (· + 1) := by
  have hdec : varintDecode (varintEncode n ++ rest) = some (n, rest) :=
    varintDecode_encode n rest
  rw [countVarints.eq_def]
  split
  · next heq =>
    exact absurd (List.append_eq_nil.mp heq).1 (varintEncode_ne_nil n)
  · next b tl heq =>
    split
    · next n' rest' hdec2 =>
      rw [← heq] at hdec2
      rw [hdec] at hdec2
      simp only [Option.some.injEq, Prod.mk.injEq] at hdec2
      rw [hdec2.2]
    · next hdec2 =>
      rw [← heq] at hdec2
      rw [hdec] at hdec2
      simp at hdec2

theorem countVarints_flatten (S : List Int) :
    countVarints ((S.map int32Encode).flatten) = some S.length := by
  induction S with
  | nil => simpa using countVarints_nil
  | cons v tl ih =>
    simp only [List.map_cons, List.flatten_cons, int32Encode]
    rw [countVarints_encode, ih]
    simp

theorem int32_flatten_length (S : List Int) (h : ∀ v ∈ S, inInt32 v) :
    ((S.map int32Encode).flatten).length = packedDataSize S := by
  induction S with
  | nil => simp [packedDataSize]
  | cons v tl ih =>
    simp only [List.map_cons, List.flatten_cons, List.length_append,
      packedDataSize, List.sum_cons]
    rw [int32Encode_length v (h v (by simp))]
    have := ih (fun u hu => h u (by simp [hu]))
    simp only [packedDataSize] at this
    omega

theorem readInt32Run_flatten (S : List Int) (rest : List Nat)
    (h : ∀ v ∈ S, inInt32 v) :
    readInt32Run S.length ((S.map int32Encode).flatten ++ rest) =
      some (S, rest) := by
  induction S with
  | nil => simp [readInt32Run]
  | cons v tl ih =>
    simp only [List.length_cons, List.map_cons, List.flatten_cons,
      List.append_assoc]
    have h1 : readInt32
        (int32Encode v ++ ((tl.map int32Encode).flatten ++ rest)) =
        some (v, (tl.map int32Encode).flatten ++ rest) :=
      readInt32_int32Encode v _ (h v (by simp))
    have h2 := ih (fun u hu => h u (by simp [hu]))
    simp only [readInt32Run, h1, h2]

theorem repeatedParsePacked_encode (g : RepeatedEnumField) (S : List Int)
    (rest : List Nat) (h : ∀ v ∈ S, inInt32 v) :
    repeatedParsePacked g
        (varintEncode ((S.map int32Encode).flatten).length ++
          ((S.map int32Encode).flatten ++ rest)) =
      some ({ g with elems := S }, rest) := by
  unfold repeatedParsePacked
  rw [varintDecode_encode]
  simp only
  rw [if_pos (by simp)]
  rw [List.take_left, List.drop_left]
  rw [countVarints_flatten S]
  simp only
  have h3 : readInt32Run S.length ((S.map int32Encode).flatten) =
      some (S, []) := by
    have := readInt32Run_flatten S [] h
    simpa using this
  rw [h3]

/-- C1: for a packed repeated enum field with a non-empty element
sequence `S`, running the generated Size operation and then the generated
Serialize operation produces output whose total byte length equals the
value Size added to the running size, that value being tag size plus
length-prefix size plus payload size, and parsing that output (after the
dispatching loop has consumed the field tag, whose byte length is
`tagSize number`) reproduces `S` exactly, in original order, including
when `S` holds negative elements. -/
theorem packed_size_serialize_parse_roundtrip (number m : Nat)
    (S : List Int) (g : RepeatedEnumField) (hne : S ≠ [])
    (hrange : ∀ v ∈ S, inInt32 v) (hnum : number < 2 ^ 29)
    (hds : packedDataSize S < 2 ^ 32) :
    (repeatedSerializePacked number
        (repeatedSerializedSizePacked number ⟨S, m⟩).1).length =
      (repeatedSerializedSizePacked number ⟨S, m⟩).2 ∧
    (repeatedSerializedSizePacked number ⟨S, m⟩).2 =
      tagSize number + computeRawVarint32Size (packedDataSize S) +
        packedDataSize S ∧
    repeatedParsePacked g
        ((repeatedSerializePacked number
            (repeatedSerializedSizePacked number ⟨S, m⟩).1).drop
          (tagSize number)) =
      some ({ g with elems := S }, []) := by
  have hlen : 0 < S.length := by
    cases S with
    | nil => exact absurd rfl hne
    | cons v tl => simp
  have hsize : repeatedSerializedSizePacked number ⟨S, m⟩ =
      (⟨S, packedDataSize S⟩,
        packedDataSize S + tagSize number +
          computeRawVarint32Size (packedDataSize S)) := by
    unfold repeatedSerializedSizePacked
    rw [if_pos hlen]
  have hser : repeatedSerializePacked number ⟨S, packedDataSize S⟩ =
      varintEncode (makeTag number 2) ++
        varintEncode (packedDataSize S) ++
        (S.map int32Encode).flatten := by
    unfold repeatedSerializePacked
    rw [if_pos hlen]
  have hflat : ((S.map int32Encode).flatten).length = packedDataSize S :=
    int32_flatten_length S hrange
  have htag : (varintEncode (makeTag number 2)).length = tagSize number :=
    tagEncode_length number 2 hnum (by omega)
  have hpre : (varintEncode (packedDataSize S)).length =
      computeRawVarint32Size (packedDataSize S) :=
    varintEncode_length_eq_size (packedDataSize S) (by omega)
  refine ⟨?_, ?_, ?_⟩
  · rw [hsize, hser]
    simp only [List.length_append]
    omega
  · rw [hsize]
    simp only
    omega
  · rw [hsize]
    simp only
    rw [hser]
    have hdrop : (varintEncode (makeTag number 2) ++
        varintEncode (packedDataSize S) ++
        (S.map int32Encode).flatten).drop (tagSize number) =
        varintEncode (packedDataSize S) ++ (S.map int32Encode).flatten := by
      rw [List.append_assoc, ← htag, List.drop_left]
    rw [hdrop, ← hflat]
    have := repeatedParsePacked_encode g S [] hrange
    simpa using this

/-- C1 witness: a concrete run with a negative element and a stale cache:
field number 1, sequence `[7, -3]`, cache cell starting at 99. -/
theorem packed_size_serialize_parse_roundtrip_witness :
    (repeatedSerializePacked 1
        (repeatedSerializedSizePacked 1 ⟨[7, -3], 99⟩).1).length =
      (repeatedSerializedSizePacked 1 ⟨[7, -3], 99⟩).2 ∧
    (repeatedSerializedSizePacked 1 ⟨[7, -3], 99⟩).2 =
      tagSize 1 + computeRawVarint32Size (packedDataSize [7, -3]) +
        packedDataSize [7, -3] ∧
    repeatedParsePacked ⟨[5], 4⟩
        ((repeatedSerializePacked 1
            (repeatedSerializedSizePacked 1 ⟨[7, -3], 99⟩).1).drop
          (tagSize 1)) =
      some ({ (⟨[5], 4⟩ : RepeatedEnumField) with elems := [7, -3] }, []) :=
  packed_size_serialize_parse_roundtrip 1 99 [7, -3] ⟨[5], 4⟩
    (by decide) (by decide) (by decide) (by decide)

/-- C7: when the element sequence is empty, the generated packed Size
operation resets the memoized cache cell to 0 (even if it held a stale
nonzero value) and adds nothing to the running message size, and the
generated Serialize operation run after it emits zero bytes. -/
theorem packed_empty_size_resets_cache (number : Nat)
    (f : RepeatedEnumField) (h : f.elems = []) :
    (repeatedSerializedSizePacked number f).1.memoizedSerializedSize = 0 ∧
    (repeatedSerializedSizePacked number f).2 = 0 ∧
    repeatedSerializePacked number
      (repeatedSerializedSizePacked number f).1 = [] := by
  unfold repeatedSerializedSizePacked repeatedSerializePacked
  simp [h]

/-- C7 witness: an empty sequence with a stale nonzero cache cell. -/
theorem packed_empty_size_resets_cache_witness :
    (repeatedSerializedSizePacked 3 ⟨[], 7⟩).1.memoizedSerializedSize = 0 ∧
    (repeatedSerializedSizePacked 3 ⟨[], 7⟩).2 = 0 ∧
    repeatedSerializePacked 3 (repeatedSerializedSizePacked 3 ⟨[], 7⟩).1 =
      [] :=
  packed_empty_size_resets_cache 3 ⟨[], 7⟩ rfl

/-- C9: the generated packed parse reads one length-prefixed span, gets
the element count of that span from the external lookahead helper,
decodes exactly that many varints with no interleaved tags, and the
decoded elements replace any prior content of the field (the prior
`elems` of `g` do not appear in the result); the bytes after the span are
left for the caller. -/
theorem packed_parse_replaces (g : RepeatedEnumField) (S : List Int)
    (rest : List Nat) (h : ∀ v ∈ S, inInt32 v) :
    countVarints ((S.map int32Encode).flatten) = some S.length ∧
    repeatedParsePacked g
        (varintEncode ((S.map int32Encode).flatten).length ++
          ((S.map int32Encode).flatten ++ rest)) =
      some ({ g with elems := S }, rest) :=
  ⟨countVarints_flatten S, repeatedParsePacked_encode g S rest h⟩

/-- C9 witness: parsing a packed span of `[1, 2]` into a field that
already holds `[9]` replaces the content with `[1, 2]` and leaves the
trailing byte. -/
theorem packed_parse_replaces_witness :
    countVarints (([1, 2].map int32Encode).flatten) =
      some ([1, 2] : List Int).length ∧
    repeatedParsePacked ⟨[9], 0⟩
        (varintEncode ((([1, 2] : List Int).map int32Encode).flatten).length ++
          ((([1, 2] : List Int).map int32Encode).flatten ++ [0])) =
      some ({ (⟨[9], 0⟩ : RepeatedEnumField) with elems := [1, 2] }, [0]) :=
  packed_parse_replaces ⟨[9], 0⟩ [1, 2] [0] (by decide)

/-- C2: the generated singular Serialize writes the wire tag followed by
the encoded value exactly when the current value differs from the
declared default, writes nothing otherwise, and the generated Size
returns exactly the number of bytes Serialize writes: zero at the
default, tag size plus the value varint size otherwise. -/
theorem enum_serialize_size_consistent (number : Nat) (dflt v : Int)
    (hnum : number < 2 ^ 29) (hv : inInt32 v) :
    (v ≠ dflt → enumSerialize number dflt v =
      varintEncode (makeTag number 0) ++ int32Encode v) ∧
    (v = dflt → enumSerialize number dflt v = []) ∧
    enumSerializedSize number dflt v =
      (enumSerialize number dflt v).length := by
  refine ⟨?_, ?_, ?_⟩
  · intro hne
    unfold enumSerialize writeInt32
    rw [if_pos hne]
  · intro heq
    unfold enumSerialize
    rw [if_neg (by simp [heq])]
  · unfold enumSerialize enumSerializedSize
    by_cases hne : v = dflt
    · simp [hne]
    · rw [if_pos hne, if_pos hne]
      unfold writeInt32 computeInt32Size
      simp only [List.length_append]
      rw [tagEncode_length number 0 hnum (by omega),
        int32Encode_length v hv]

/-- C2 witness: field number 1, default 0, value -1 (differs from the
default, negative, so a ten-byte varint). -/
theorem enum_serialize_size_consistent_witness :
    ((-1 : Int) ≠ 0 → enumSerialize 1 0 (-1) =
      varintEncode (makeTag 1 0) ++ int32Encode (-1)) ∧
    ((-1 : Int) = 0 → enumSerialize 1 0 (-1) = []) ∧
    enumSerializedSize 1 0 (-1) = (enumSerialize 1 0 (-1)).length :=
  enum_serialize_size_consistent 1 0 (-1) (by decide) (by decide)

theorem getRepeated_run_length (number : Nat) :
    ∀ (S' : List Int) (v : Int) (rest : List Nat), inInt32 v →
      (∀ u ∈ S', inInt32 u) →
      (∀ t r, varintDecode rest = some (t, r) → t ≠ makeTag number 0) →
      getRepeatedFieldArrayLength (makeTag number 0)
        (int32Encode v ++ ((S'.map (writeInt32 number)).flatten ++ rest)) =
        some (S'.length + 1) := by
  intro S'
  induction S' with
  | nil =>
    intro v rest hv _ hrest
    simp only [List.map_nil, List.flatten_nil, List.nil_append,
      List.length_nil, Nat.zero_add]
    rw [getRepeatedFieldArrayLength.eq_def]
    split
    · next w rest1 h1 =>
      rw [readInt32_int32Encode v rest hv] at h1
      simp only [Option.some.injEq, Prod.mk.injEq] at h1
      obtain ⟨hw, hrest1⟩ := h1
      subst hrest1
      split
      · next t r2 h2 =>
        rw [if_neg (hrest t r2 h2)]
      · rfl
    · next h1 =>
      rw [readInt32_int32Encode v rest hv] at h1
      exact absurd h1 (by simp)
  | cons u S'' ih =>
    intro v rest hv hS hrest
    simp only [List.map_cons, List.flatten_cons, List.append_assoc,
      List.length_cons]
    rw [getRepeatedFieldArrayLength.eq_def]
    split
    · next w rest1 h1 =>
      rw [readInt32_int32Encode v _ hv] at h1
      simp only [Option.some.injEq, Prod.mk.injEq] at h1
      obtain ⟨hw, hrest1⟩ := h1
      subst hrest1
      have h2' : varintDecode (writeInt32 number u ++
          ((S''.map (writeInt32 number)).flatten ++ rest)) =
          some (makeTag number 0,
            int32Encode u ++
              ((S''.map (writeInt32 number)).flatten ++ rest)) := by
        unfold writeInt32
        rw [List.append_assoc, varintDecode_encode]
      split
      · next t r2 h2 =>
        rw [h2'] at h2
        simp only [Option.some.injEq, Prod.mk.injEq] at h2
        obtain ⟨ht, hr2⟩ := h2
        subst hr2
        rw [if_pos ht.symm]
        rw [ih u rest (hS u (by simp)) (fun x hx => hS x (by simp [hx]))
          hrest]
        rfl
      · next h2 =>
        rw [h2'] at h2
        exact absurd h2 (by simp)
    · next h1 =>
      rw [readInt32_int32Encode v _ hv] at h1
      exact absurd h1 (by simp)

theorem readValueTagPairs_chain (number : Nat) :
    ∀ (S' : List Int) (v : Int) (rest : List Nat), inInt32 v →
      (∀ u ∈ S', inInt32 u) →
      ∃ vs w, v :: S' = vs ++ [w] ∧ inInt32 w ∧
        readValueTagPairs S'.length
          (int32Encode v ++ ((S'.map (writeInt32 number)).flatten ++ rest)) =
          some (vs, int32Encode w ++ rest) := by
  intro S'
  induction S' with
  | nil =>
    intro v rest hv _
    refine ⟨[], v, by simp, hv, ?_⟩
    simp [readValueTagPairs]
  | cons u S'' ih =>
    intro v rest hv hS
    obtain ⟨vs, w, hsplit, hw, hrun⟩ :=
      ih u rest (hS u (by simp)) (fun x hx => hS x (by simp [hx]))
    refine ⟨v :: vs, w, by rw [List.cons_append, ← hsplit], hw, ?_⟩
    simp only [List.map_cons, List.flatten_cons, List.append_assoc,
      List.length_cons]
    have h1 : readInt32 (int32Encode v ++ (writeInt32 number u ++
        ((S''.map (writeInt32 number)).flatten ++ rest))) =
        some (v, writeInt32 number u ++
          ((S''.map (writeInt32 number)).flatten ++ rest)) :=
      readInt32_int32Encode v _ hv
    have h2 : varintDecode (writeInt32 number u ++
        ((S''.map (writeInt32 number)).flatten ++ rest)) =
        some (makeTag number 0,
          int32Encode u ++
            ((S''.map (writeInt32 number)).flatten ++ rest)) := by
      unfold writeInt32
      rw [List.append_assoc, varintDecode_encode]
    simp only [readValueTagPairs, h1, h2, hrun]

/-- C8: serializing a sequence unpacked writes one tag plus one varint
per element; after the dispatching loop has consumed the first tag, the
generated parser (which reads a tag between consecutive elements of the
run but consumes the final element without re-reading a tag) appends the
same sequence, order preserved and with no deduplication, to the
existing elements. -/
theorem unpacked_serialize_parse_roundtrip (number m : Nat) (S : List Int)
    (f : RepeatedEnumField) (hne : S ≠ []) (hrange : ∀ v ∈ S, inInt32 v) :
    ∃ body,
      repeatedSerializeUnpacked number ⟨S, m⟩ =
        varintEncode (makeTag number 0) ++ body ∧
      repeatedParseUnpacked (makeTag number 0) f body =
        some ({ f with elems := f.elems ++ S }, []) := by
  obtain ⟨v, S', rfl⟩ : ∃ v S', S = v :: S' := by
    cases S with
    | nil => exact absurd rfl hne
    | cons v S' => exact ⟨v, S', rfl⟩
  have hv : inInt32 v := hrange v (by simp)
  have hS' : ∀ u ∈ S', inInt32 u := fun u hu => hrange u (by simp [hu])
  have hrest : ∀ t r, varintDecode ([] : List Nat) = some (t, r) →
      t ≠ makeTag number 0 := by
    intro t r hcontra
    exact absurd hcontra (by simp [varintDecode])
  refine ⟨int32Encode v ++ ((S'.map (writeInt32 number)).flatten ++ []),
    ?_, ?_⟩
  · unfold repeatedSerializeUnpacked
    rw [if_pos (by simp)]
    simp only [List.map_cons, List.flatten_cons, List.append_nil]
    unfold writeInt32
    rw [List.append_assoc]
  · unfold repeatedParseUnpacked
    rw [getRepeated_run_length number S' v [] hv hS' hrest]
    simp only [Nat.add_sub_cancel]
    obtain ⟨vs, w, hsplit, hw, hrun⟩ :=
      readValueTagPairs_chain number S' v [] hv hS'
    rw [hrun]
    simp only
    have hread : readInt32 (int32Encode w ++ []) = some (w, []) := by
      have := readInt32_int32Encode w [] hw
      simpa using this
    rw [hread]
    simp only [Option.some.injEq, Prod.mk.injEq]
    constructor
    · congr 1
      rw [List.append_assoc, ← hsplit]
    · trivial

/-- C8 witness: serializing `[7, -3, 0]` unpacked with field number 1,
then parsing the bytes after the first tag into an empty field, yields
exactly `[7, -3, 0]`. -/
theorem unpacked_serialize_parse_roundtrip_witness :
    ∃ body,
      repeatedSerializeUnpacked 1 ⟨[7, -3, 0], 0⟩ =
        varintEncode (makeTag 1 0) ++ body ∧
      repeatedParseUnpacked (makeTag 1 0) ⟨[], 0⟩ body =
        some ({ (⟨[], 0⟩ : RepeatedEnumField) with
          elems := ([] : List Int) ++ [7, -3, 0] }, []) :=
  unpacked_serialize_parse_roundtrip 1 0 [7, -3, 0] ⟨[], 0⟩
    (by decide) (by decide)

/-- An enumeration value as supplied by the descriptor: declared name,
integer number, declaration-order index.  Distinct declared values have
distinct indices (declaration order is a total order). -/
structure EnumValueDescriptor where
  name : String
  number : Int
  index : Nat
deriving Repr, DecidableEq

/-- Attach consecutive declaration-order indices, starting at `i`, to a
raw `(name, number)` list. -/
def attachIndicesFrom (i : Nat) : List (String × Int) → List EnumValueDescriptor
  | [] => []
  | (nm, num) :: tl => ⟨nm, num, i⟩ :: attachIndicesFrom (i + 1) tl

/-- The declared value list of an enumeration, in declaration order,
with index `k` on the value declared at position `k`. -/
def attachIndices (raw : List (String × Int)) : List EnumValueDescriptor :=
  attachIndicesFrom 0 raw

/-- First declared value carrying the given number.  Modelled from the
spec: `descriptor_->FindValueByNumber`, the descriptor lookup (not part
of this snapshot) that resolves a number to the first value in
declaration order sharing it. -/
def findValueByNumber (values : List EnumValueDescriptor) (n : Int) :
    Option EnumValueDescriptor :=
  values.find? (fun v => v.number == n)

/-- An alias record as built by `EnumGenerator::EnumGenerator`. -/
structure Alias where
  value : EnumValueDescriptor
  canonical_value : EnumValueDescriptor
deriving Repr, DecidableEq

/-- The partition loop of `EnumGenerator::EnumGenerator`: every value
whose number lookup returns itself goes to `canonical_values_`, every
other value is recorded in `aliases_` with the lookup result as its
`canonical_value`.  `all` is the full value list used for lookups; the
`none` lookup branch is unreachable when the scanned values occur in
`all`. -/
def partitionValues (all : List EnumValueDescriptor) :
    List EnumValueDescriptor → List EnumValueDescriptor × List Alias
  | [] => ([], [])
  | v :: tl =>
    match findValueByNumber all v.number with
    | some c =>
      if v = c then
        (v :: (partitionValues all tl).1, (partitionValues all tl).2)
      else
        ((partitionValues all tl).1,
          ⟨v, c⟩ :: (partitionValues all tl).2)
    | none => partitionValues all tl

/-- The `(canonical_values_, aliases_)` state after
`EnumGenerator::EnumGenerator` has scanned the whole value list. -/
def enumGeneratorInit (values : List EnumValueDescriptor) :
    List EnumValueDescriptor × List Alias :=
  partitionValues values values

/-- An emitted constant is either a literal number or a reference to
another emitted constant by name. -/
inductive ConstVal where
  | lit (n : Int)
  | ref (name : String)
deriving Repr, DecidableEq

/-- The constants emitted by `EnumGenerator::Generate`: one literal
constant per canonical value, then one reference constant per alias.
The naming collaborator `RenameJavaKeywords` is modelled as the
identity; both an alias reference and the canonical constant name pass
through the same renaming, so the reference relation is preserved. -/
def enumGenerate (values : List EnumValueDescriptor) :
    List (String × ConstVal) :=
  (enumGeneratorInit values).1.map
      (fun v => (v.name, ConstVal.lit v.number)) ++
    (enumGeneratorInit values).2.map
      (fun a => (a.value.name, ConstVal.ref a.canonical_value.name))

/-- Resolving the canonical value of `v` once more: the number lookup
applied again. -/
def resolveCanonical (values : List EnumValueDescriptor)
    (v : EnumValueDescriptor) : EnumValueDescriptor :=
  (findValueByNumber values v.number).getD v

theorem attachIndicesFrom_index_ge (raw : List (String × Int)) :
    ∀ (i : Nat) (v : EnumValueDescriptor),
      v ∈ attachIndicesFrom i raw → i ≤ v.index := by
  induction raw with
  | nil => intro i v hv; simp [attachIndicesFrom] at hv
  | cons p tl ih =>
    intro i v hv
    obtain ⟨nm, num⟩ := p
    simp only [attachIndicesFrom, List.mem_cons] at hv
    rcases hv with rfl | hv'
    · rfl
    · have := ih (i + 1) v hv'
      omega

theorem attachIndicesFrom_pairwise (raw : List (String × Int)) :
    ∀ (i : Nat), (attachIndicesFrom i raw).Pairwise
      (fun a b => a.index < b.index) := by
  induction raw with
  | nil => intro i; simp [attachIndicesFrom]
  | cons p tl ih =>
    intro i
    obtain ⟨nm, num⟩ := p
    simp only [attachIndicesFrom]
    refine List.pairwise_cons.mpr ⟨?_, ih (i + 1)⟩
    intro b hb
    have := attachIndicesFrom_index_ge tl (i + 1) b hb
    simp only
    omega

theorem attachIndices_pairwise (raw : List (String × Int)) :
    (attachIndices raw).Pairwise (fun a b => a.index < b.index) :=
  attachIndicesFrom_pairwise raw 0

theorem find_min_index :
    ∀ (values : List EnumValueDescriptor) (v : EnumValueDescriptor),
      values.Pairwise (fun a b => a.index < b.index) →
      v ∈ values →
      (∀ u ∈ values, u.number = v.number → v.index ≤ u.index) →
      findValueByNumber values v.number = some v := by
  intro values
  induction values with
  | nil => intro v _ hv _; simp at hv
  | cons a tl ih =>
    intro v hpw hv hmin
    rcases List.mem_cons.mp hv with rfl | hv'
    · unfold findValueByNumber
      rw [List.find?_cons_of_pos _ (by simp)]
    · have hane : a.number ≠ v.number := by
        intro he
        have h1 := hmin a (by simp) he
        have h2 := (List.pairwise_cons.mp hpw).1 v hv'
        omega
      unfold findValueByNumber
      rw [List.find?_cons_of_neg _ (by simp [hane])]
      exact ih v (List.pairwise_cons.mp hpw).2 hv'
        (fun u hu he => hmin u (by simp [hu]) he)

theorem partition_mem_canonical (all : List EnumValueDescriptor) :
    ∀ (sub : List EnumValueDescriptor) (v : EnumValueDescriptor),
      v ∈ sub → findValueByNumber all v.number = some v →
      v ∈ (partitionValues all sub).1 := by
  intro sub
  induction sub with
  | nil => intro v hv _; simp at hv
  | cons a tl ih =>
    intro v hv hfind
    simp only [partitionValues]
    rcases List.mem_cons.mp hv with rfl | hv'
    · simp [hfind]
    · split
      · next c hc =>
        split
        · exact List.mem_cons_of_mem _ (ih v hv' hfind)
        · exact ih v hv' hfind
      · next hc => exact ih v hv' hfind

theorem partition_mem_alias (all : List EnumValueDescriptor) :
    ∀ (sub : List EnumValueDescriptor) (w c : EnumValueDescriptor),
      w ∈ sub → findValueByNumber all w.number = some c → w ≠ c →
      Alias.mk w c ∈ (partitionValues all sub).2 := by
  intro sub
  induction sub with
  | nil => intro w c hw _ _; simp at hw
  | cons a tl ih =>
    intro w c hw hfind hne
    simp only [partitionValues]
    rcases List.mem_cons.mp hw with rfl | hw'
    · simp [hfind, hne]
    · split
      · next c' hc' =>
        split
        · exact ih w c hw' hfind hne
        · exact List.mem_cons_of_mem _ (ih w c hw' hfind hne)
      · next hc' => exact ih w c hw' hfind hne

theorem partition_alias_inv (all : List EnumValueDescriptor) :
    ∀ (sub : List EnumValueDescriptor) (a : Alias),
      a ∈ (partitionValues all sub).2 →
      a.value ∈ sub ∧
      findValueByNumber all a.value.number = some a.canonical_value ∧
      a.canonical_value ≠ a.value := by
  intro sub
  induction sub with
  | nil => intro a ha; simp [partitionValues] at ha
  | cons v tl ih =>
    intro a ha
    simp only [partitionValues] at ha
    split at ha
    · next c hc =>
      split at ha
      · obtain ⟨h1, h2, h3⟩ := ih a ha
        exact ⟨List.mem_cons_of_mem _ h1, h2, h3⟩
      · next hne =>
        rcases List.mem_cons.mp ha with rfl | ha'
        · exact ⟨by simp, hc, fun he => hne he.symm⟩
        · obtain ⟨h1, h2, h3⟩ := ih a ha'
          exact ⟨List.mem_cons_of_mem _ h1, h2, h3⟩
    · next hc =>
      obtain ⟨h1, h2, h3⟩ := ih a ha
      exact ⟨List.mem_cons_of_mem _ h1, h2, h3⟩

theorem findValueByNumber_number (values : List EnumValueDescriptor)
    (n : Int) (c : EnumValueDescriptor)
    (h : findValueByNumber values n = some c) : c.number = n := by
  unfold findValueByNumber at h
  have := List.find?_some h
  simpa using this

theorem findValueByNumber_mem (values : List EnumValueDescriptor)
    (n : Int) (c : EnumValueDescriptor)
    (h : findValueByNumber values n = some c) : c ∈ values :=
  List.mem_of_find?_eq_some h

/-- C3: in an enumeration, the value with the smallest declaration-order
index among all values sharing a number is classified canonical, and
every other value with that number becomes an alias whose emitted
constant is a reference (`ConstVal.ref`) to the canonical value emitted
constant name, not a literal duplicate of the number. -/
theorem canonical_partition_and_alias_reference (raw : List (String × Int))
    (v w : EnumValueDescriptor)
    (hv : v ∈ attachIndices raw) (hw : w ∈ attachIndices raw)
    (hmin : ∀ u ∈ attachIndices raw, u.number = v.number →
      v.index ≤ u.index)
    (hshare : w.number = v.number) (hne : w ≠ v) :
    v ∈ (enumGeneratorInit (attachIndices raw)).1 ∧
    Alias.mk w v ∈ (enumGeneratorInit (attachIndices raw)).2 ∧
    (v.name, ConstVal.lit v.number) ∈ enumGenerate (attachIndices raw) ∧
    (w.name, ConstVal.ref v.name) ∈ enumGenerate (attachIndices raw) := by
  have hfindv : findValueByNumber (attachIndices raw) v.number = some v :=
    find_min_index _ v (attachIndices_pairwise raw) hv hmin
  have hfindw : findValueByNumber (attachIndices raw) w.number = some v := by
    rw [hshare]; exact hfindv
  have h1 : v ∈ (enumGeneratorInit (attachIndices raw)).1 :=
    partition_mem_canonical _ _ v hv hfindv
  have h2 : Alias.mk w v ∈ (enumGeneratorInit (attachIndices raw)).2 :=
    partition_mem_alias _ _ w v hw hfindw hne
  refine ⟨h1, h2, ?_, ?_⟩
  · unfold enumGenerate
    exact List.mem_append_left _ (List.mem_map.mpr ⟨v, h1, rfl⟩)
  · unfold enumGenerate
    exact List.mem_append_right _ (List.mem_map.mpr ⟨Alias.mk w v, h2, rfl⟩)

/-- C3 witness: the example of the claim, values
`[(name=A,num=5,idx=0), (name=B,num=5,idx=1)]`: A is canonical with
literal 5, B is an alias emitted as a reference to A. -/
theorem canonical_partition_and_alias_reference_witness :
    (⟨"A", 5, 0⟩ : EnumValueDescriptor) ∈
      (enumGeneratorInit (attachIndices [("A", 5), ("B", 5)])).1 ∧
    Alias.mk ⟨"B", 5, 1⟩ ⟨"A", 5, 0⟩ ∈
      (enumGeneratorInit (attachIndices [("A", 5), ("B", 5)])).2 ∧
    ("A", ConstVal.lit 5) ∈ enumGenerate (attachIndices [("A", 5), ("B", 5)]) ∧
    ("B", ConstVal.ref "A") ∈
      enumGenerate (attachIndices [("A", 5), ("B", 5)]) :=
  canonical_partition_and_alias_reference [("A", 5), ("B", 5)]
    ⟨"A", 5, 0⟩ ⟨"B", 5, 1⟩ (by decide) (by decide) (by decide)
    (by decide) (by decide)

/-- C4: every alias built at construction time is paired with a value
that is itself canonical: it lies in the canonical set, it is no alias
value, and resolving its canonical reference once more is the identity,
so resolution reaches a fixed point in one step. -/
theorem alias_canonical_is_canonical (values : List EnumValueDescriptor)
    (a : Alias) (ha : a ∈ (enumGeneratorInit values).2) :
    a.canonical_value ∈ (enumGeneratorInit values).1 ∧
    (∀ b ∈ (enumGeneratorInit values).2, a.canonical_value ≠ b.value) ∧
    resolveCanonical values a.canonical_value = a.canonical_value := by
  obtain ⟨hmem, hfind, hne⟩ := partition_alias_inv values values a ha
  have hnum : a.canonical_value.number = a.value.number :=
    findValueByNumber_number _ _ _ hfind
  have hcfind : findValueByNumber values a.canonical_value.number =
      some a.canonical_value := by
    rw [hnum]; exact hfind
  have hcmem : a.canonical_value ∈ values :=
    findValueByNumber_mem _ _ _ hfind
  refine ⟨partition_mem_canonical values values _ hcmem hcfind, ?_, ?_⟩
  · intro b hb heq
    obtain ⟨_, hbfind, hbne⟩ := partition_alias_inv values values b hb
    rw [heq] at hcfind
    rw [hbfind] at hcfind
    exact hbne (Option.some.inj hcfind)
  · unfold resolveCanonical
    rw [hcfind]
    rfl

/-- C4 witness: in the two-value enumeration `[(A,5,0), (B,5,1)]`, the
alias record for B points at A, which is canonical, is no alias value,
and is a resolution fixed point. -/
theorem alias_canonical_is_canonical_witness :
    (Alias.mk ⟨"B", 5, 1⟩ ⟨"A", 5, 0⟩).canonical_value ∈
      (enumGeneratorInit (attachIndices [("A", 5), ("B", 5)])).1 ∧
    (∀ b ∈ (enumGeneratorInit (attachIndices [("A", 5), ("B", 5)])).2,
      (Alias.mk ⟨"B", 5, 1⟩ ⟨"A", 5, 0⟩).canonical_value ≠ b.value) ∧
    resolveCanonical (attachIndices [("A", 5), ("B", 5)])
        (Alias.mk ⟨"B", 5, 1⟩ ⟨"A", 5, 0⟩).canonical_value =
      (Alias.mk ⟨"B", 5, 1⟩ ⟨"A", 5, 0⟩).canonical_value :=
  alias_canonical_is_canonical (attachIndices [("A", 5), ("B", 5)])
    (Alias.mk ⟨"B", 5, 1⟩ ⟨"A", 5, 0⟩) (by decide)

/-- Modelled from the spec: the append-only merge behavior the spec
prescribes for the repeated field.  This is the contrast definition for
the defect theorems only — it is never used as the semantics of the
program, because the emitted merge fragment (`repeatedEnumMergingCode`,
transcribed from `GenerateMergingCode`) references the undefined
identifier `results` and so gives the program no merge semantics. -/
def repeatedMergeSpec (dest source : RepeatedEnumField) :
    RepeatedEnumField :=
  if source.elems.length > 0 then
    { dest with elems := dest.elems ++ source.elems }
  else dest

/-- Effect of one generated packed-parse call on the field state.  A
parse failure is a fatal decode error of the surrounding stream; the
state is left as it was. -/
def parseStep (f : RepeatedEnumField) (input : List Nat) :
    RepeatedEnumField :=
  match repeatedParsePacked f input with
  | some (f2, _) => f2
  | none => f

/-- Effect of one generated packed-Size call on the field state. -/
def sizeStep (number : Nat) (f : RepeatedEnumField) : RepeatedEnumField :=
  (repeatedSerializedSizePacked number f).1

/-- Any number of further generated parse calls, one per input. -/
def parseRun (f : RepeatedEnumField) :
    List (List Nat) → RepeatedEnumField
  | [] => f
  | input :: inputs => parseRun (parseStep f input) inputs

theorem repeatedParsePacked_memo (f : RepeatedEnumField)
    (input : List Nat) (f2 : RepeatedEnumField) (rest : List Nat)
    (h : repeatedParsePacked f input = some (f2, rest)) :
    f2.memoizedSerializedSize = f.memoizedSerializedSize := by
  unfold repeatedParsePacked at h
  split at h
  · next L bs hdec =>
    split at h
    · split at h
      · next k hk =>
        split at h
        · next vs r hr =>
          simp only [Option.some.injEq, Prod.mk.injEq] at h
          rw [← h.1]
        · exact absurd h (by simp)
      · exact absurd h (by simp)
    · exact absurd h (by simp)
  · exact absurd h (by simp)

theorem parseStep_preserves_memo (f : RepeatedEnumField)
    (input : List Nat) :
    (parseStep f input).memoizedSerializedSize =
      f.memoizedSerializedSize := by
  unfold parseStep
  split
  · next f2 rest hp => exact repeatedParsePacked_memo f input f2 rest hp
  · rfl

theorem parseRun_preserves_memo :
    ∀ (inputs : List (List Nat)) (f : RepeatedEnumField),
      (parseRun f inputs).memoizedSerializedSize =
        f.memoizedSerializedSize := by
  intro inputs
  induction inputs with
  | nil => intro f; rfl
  | cons input tl ih =>
    intro f
    simp only [parseRun]
    rw [ih (parseStep f input)]
    exact parseStep_preserves_memo f input

theorem repeatedParsePacked_ignores_cache (e : List Int) (m m' : Nat)
    (input : List Nat) :
    (repeatedParsePacked ⟨e, m⟩ input).map (fun p => (p.1.elems, p.2)) =
      (repeatedParsePacked ⟨e, m'⟩ input).map (fun p => (p.1.elems, p.2)) := by
  unfold repeatedParsePacked
  repeat' split
  all_goals simp_all

theorem sizeStep_writes_payload (number : Nat) (f : RepeatedEnumField) :
    (sizeStep number f).memoizedSerializedSize =
      packedDataSize f.elems := by
  unfold sizeStep repeatedSerializedSizePacked
  split
  · rfl
  · next hlen =>
    simp only
    cases he : f.elems with
    | nil => simp [packedDataSize]
    | cons v tl => rw [he] at hlen; simp at hlen

/-- The text emitted by `EnumFieldGenerator::GenerateMergingCode` with
`$capitalized_name$` substituted: the two adjacent C++ string literals
concatenate, so the stray text `what is other??` is printed immediately
before the guarded copy. -/
def enumMergingCode (cap : String) : String :=
  "what is other??" ++ "if (other.has" ++ cap ++ "()) \x7b\n" ++
    "  set" ++ cap ++ "(other.get" ++ cap ++ "());\n" ++ "\x7d\n"

/-- Modelled from the spec: the singular-field merge fragment is nothing
other than the guarded copy — the presence test on the source followed
by the accessor-mediated copy. -/
def enumMergingCodeSpec (cap : String) : String :=
  "if (other.has" ++ cap ++ "()) \x7b\n" ++
    "  set" ++ cap ++ "(other.get" ++ cap ++ "());\n" ++ "\x7d\n"

/-- The text emitted by `RepeatedEnumFieldGenerator::GenerateMergingCode`
with `$name$` substituted.  Note the `arraycopy` destination offset:
it reads `results.` although the fragment binds only `other`, `result`
and `merged`. -/
def repeatedEnumMergingCode (nm : String) : String :=
  "if (other." ++ nm ++ ".length > 0) \x7b\n" ++
    "  int[] merged = java.util.Arrays.copyOf(result." ++ nm ++
    ", result." ++ nm ++ ".length + other." ++ nm ++ ".length);\n" ++
    "  java.lang.System.arraycopy(other." ++ nm ++
    ", 0, merged, results." ++ nm ++ ".length, other." ++ nm ++
    ".length);\n" ++
    "  result." ++ nm ++ " = merged;\n" ++ "\x7d\n"

def charsMatchAt : List Char → List Char → Bool
  | [], _ => true
  | _ :: _, [] => false
  | a :: as_, b :: bs => a == b && charsMatchAt as_ bs

def containsChars (pat : List Char) : List Char → Bool
  | [] => charsMatchAt pat []
  | s@(_ :: tl) => charsMatchAt pat s || containsChars pat tl

/-- Whether `pat` occurs as a contiguous run of `s`. -/
def containsText (pat s : String) : Bool :=
  containsChars pat.toList s.toList

/-- C6 (code defect): the fragment emitted by the singular-field merge
generator is the stray text `what is other??` followed by the guarded
copy, hence not the guarded copy alone — the emitted Java is not even
well formed. -/
theorem enum_merging_code_stray_text :
    enumMergingCode "Foo" =
      "what is other??" ++ enumMergingCodeSpec "Foo" ∧
    enumMergingCode "Foo" ≠ enumMergingCodeSpec "Foo" := by
  constructor
  · rfl
  · decide

/-- C5 (code defect): the fragment emitted by the repeated-field merge
generator references the undefined identifier `results` (in the
`arraycopy` destination offset), so the emitted Java does not compile;
the spec-modelled merge has the claimed append-only behavior on the
claim examples. -/
theorem repeated_merging_code_defect :
    containsText "results." (repeatedEnumMergingCode "bar") = true ∧
    repeatedMergeSpec ⟨[3], 0⟩ ⟨[1, 2], 0⟩ = ⟨[3, 1, 2], 0⟩ ∧
    repeatedMergeSpec ⟨[3], 0⟩ ⟨[], 0⟩ = ⟨[3], 0⟩ := by
  refine ⟨by decide, by decide, by decide⟩

/-- C10 (code defect): of the operations the generated program actually
has, the cache cell is written only by Size — it stores the payload
size of the current sequence (zero when the sequence is empty) and any
number of subsequent generated parse calls leave the cell untouched and
ignore its value (Serialize is a pure function of the state: it returns
bytes and assigns no field).  The claim's Merge conjunct cannot hold of
the program: the emitted merge fragment references the undefined
identifier `results`, so the generated Java does not compile — though
its text never even names the cache cell. -/
theorem packed_cache_size_only_writer (number : Nat)
    (f : RepeatedEnumField) (inputs : List (List Nat)) :
    (sizeStep number f).memoizedSerializedSize = packedDataSize f.elems ∧
    (parseRun (sizeStep number f) inputs).memoizedSerializedSize =
      packedDataSize f.elems ∧
    (∀ (e : List Int) (m m' : Nat) (input : List Nat),
      (repeatedParsePacked ⟨e, m⟩ input).map (fun p => (p.1.elems, p.2)) =
        (repeatedParsePacked ⟨e, m'⟩ input).map
          (fun p => (p.1.elems, p.2))) ∧
    containsText "MemoizedSerializedSize"
      (repeatedEnumMergingCode "qux") = false ∧
    containsText "results." (repeatedEnumMergingCode "qux") = true := by
  refine ⟨sizeStep_writes_payload number f, ?_,
    repeatedParsePacked_ignores_cache, by decide, by decide⟩
  rw [parseRun_preserves_memo inputs (sizeStep number f)]
  exact sizeStep_writes_payload number f

end JavaNano
